import Mathlib

/-!
Verification of the Smaz small-string codec (Go implementation `smaz.go`,
PHP implementation `smaz.php`).  Bytes are modelled as natural numbers
(values 0..255 in every actual execution); byte slices / binary strings are
`List Nat`.  The Go loops are rendered as structurally recursive functions
over an explicit fuel argument equal to the loop variant (remaining input
length), so that every definition is kernel-computable; fuel-irrelevance
lemmas recover the loop equations.
-/

set_option maxHeartbeats 1000000
set_option maxRecDepth 100000

/-- Codebook entries, transcribed from `codeStrings` in `smaz.go`
(the PHP `$decodeMap` in `smaz.php` is the identical table). -/
def codeStrings : List String :=
  [" ", "the", "e", "t", "a", "of", "o", "and", "i", "n", "s", "e ", "r", " th",
   " t", "in", "he", "th", "h", "he ", "to", "\r\n", "l", "s ", "d", " a", "an",
   "er", "c", " o", "d ", "on", " of", "re", "of ", "t ", ", ", "is", "u", "at",
   "   ", "n ", "or", "which", "f", "m", "as", "it", "that", "\n", "was", "en",
   "  ", " w", "es", " an", " i", "\r", "f ", "g", "p", "nd", " s", "nd ", "ed ",
   "w", "ed", "http://", "for", "te", "ing", "y ", "The", " c", "ti", "r ", "his",
   "st", " in", "ar", "nt", ",", " to", "y", "ng", " h", "with", "le", "al", "to ",
   "b", "ou", "be", "were", " b", "se", "o ", "ent", "ha", "ng ", "their", "\"",
   "hi", "from", " f", "in ", "de", "ion", "me", "v", ".", "ve", "all", "re ",
   "ri", "ro", "is ", "co", "f t", "are", "ea", ". ", "her", " m", "er ", " p",
   "es ", "by", "they", "di", "ra", "ic", "not", "s, ", "d t", "at ", "ce", "la",
   "h ", "ne", "as ", "tio", "on ", "n t", "io", "we", " a ", "om", ", a", "s o",
   "ur", "li", "ll", "ch", "had", "this", "e t", "g ", "e\r\n", " wh", "ere",
   " co", "e o", "a ", "us", " d", "ss", "\n\r\n", "\r\n\r", "=\"", " be", " e",
   "s a", "ma", "one", "t t", "or ", "but", "el", "so", "l ", "e s", "s,", "no",
   "ter", " wa", "iv", "ho", "e a", " r", "hat", "s t", "ns", "ch ", "wh", "tr",
   "ut", "/", "have", "ly ", "ta", " ha", " on", "tha", "-", " l", "ati", "en ",
   "pe", " re", "there", "ass", "si", " fo", "wa", "ec", "our", "who", "its", "z",
   "fo", "rs", ">", "ot", "un", "<", "im", "th ", "nc", "ate", "><", "ver", "ad",
   " we", "ly", "ee", " n", "id", " cl", "ac", "il", "</", "rt", " wi", "div",
   "e, ", " it", "whi", " ma", "ge", "x", "e c", "men", ".com"]

/-- Byte sequence of a (pure-ASCII) codebook string. -/
def strBytes (s : String) : List Nat := s.data.map Char.toNat

/-- The codebook as byte sequences; this is Go's `decodeMap` (built in `init`
as `decodeMap[i] = codeStrings[i]`) and PHP's `Smaz::$decodeMap`. -/
def decodeMap : List (List Nat) := codeStrings.map strBytes

/-- Escape code for a single verbatim byte (`verbatimByte` in `smaz.go`,
`Smaz::VERBATIM_BYTE` in `smaz.php`). -/
def verbatimByte : Nat := 254

/-- Escape code for a length-prefixed verbatim run (`verbatimString` in
`smaz.go`, `Smaz::VERBATIM_STRING` in `smaz.php`). -/
def verbatimString : Nat := 255

/-- Prefix-trie node, from `trieNode` in `smaz.go`.  The Go 256-pointer
branch array (nil = absent child) is modelled as an association list from
byte to child. -/
inductive trieNode where
  | node (branches : List (Nat × trieNode)) (val : Nat) (terminal : Bool)

/-- Branch table of a node. -/
def trieNode.branches : trieNode → List (Nat × trieNode)
  | .node br _ _ => br

/-- Code stored at a node. -/
def trieNode.val : trieNode → Nat
  | .node _ v _ => v

/-- Whether a node terminates a codebook entry. -/
def trieNode.terminal : trieNode → Bool
  | .node _ _ t => t

/-- Child of a node for byte `c` (Go: `n.branches[c]`, nil = `none`). -/
def trieNode.branch (t : trieNode) (c : Nat) : Option trieNode :=
  t.branches.lookup c

/-- The zero-valued `trieNode{}` Go allocates for missing children. -/
def emptyNode : trieNode := .node [] 0 false

/-- Store a child under byte `c`, replacing any existing one (models the
assignment `n.branches[c] = ...`). -/
def setBranch : List (Nat × trieNode) → Nat → trieNode → List (Nat × trieNode)
  | [], c, t => [(c, t)]
  | (c0, t0) :: rest, c, t =>
    if c0 = c then (c, t) :: rest else (c0, t0) :: setBranch rest c t

/-- Insert a key/value pair, from `(*trieNode).put` in `smaz.go`: walk the
key creating missing children, then mark the final node terminal with the
given value. -/
def trieNode.put : trieNode → List Nat → Nat → trieNode
  | .node br _ _, [], v => .node br v true
  | .node br v0 t0, c :: cs, v =>
    let child := (br.lookup c).getD emptyNode
    .node (setBranch br c (trieNode.put child cs v)) v0 t0

/-- Iterative body of `(*trieNode).findLongestPrefix` in `smaz.go`: walk the
input while branches exist, remembering the deepest terminal node seen as
`(lastMatch, lastCode)` in the accumulator. -/
def trieNode.findLPAux : trieNode → List Nat → Nat → Nat × Nat → Nat × Nat
  | _, [], _, acc => acc
  | t, c :: cs, i, acc =>
    match t.branch c with
    | none => acc
    | some t2 =>
      trieNode.findLPAux t2 cs (i + 1) (if t2.terminal then (i + 1, t2.val) else acc)

/-- Longest-prefix search, from `(*trieNode).findLongestPrefix` in `smaz.go`:
returns the length of the longest codebook entry that is a prefix of the
input together with its code, or `(0, _)` when none matches. -/
def trieNode.findLongestPrefix (t : trieNode) (input : List Nat) : Nat × Nat :=
  trieNode.findLPAux t input 0 (0, 0)

/-- The shared trie, built exactly as Go's `init`:
`for i, s := range codeStrings { codeTrie.put([]byte(s), byte(i)) }`. -/
def codeTrie : trieNode :=
  decodeMap.enum.foldl (fun t p => trieNode.put t p.2 p.1) emptyNode

/-- The longest-match query Go's `Compress` performs at each cursor
position: `codeTrie.findLongestPrefix(input[i : i+maxLen])` with
`maxLen = min(7, inputLen-i)`. -/
def matchAt (l : List Nat) : Nat × Nat :=
  trieNode.findLongestPrefix codeTrie (l.take 7)

/-- Loop body of `flushVerbatim` in `smaz.go`: split the verbatim buffer
into chunks of at most 255 bytes, emitting `[254, b]` for a 1-byte chunk and
`[255, len, bytes...]` otherwise.  Fuel bounds the iteration count (each
pass consumes at least one byte, so `v.length` fuel always suffices). -/
def flushLoop : Nat → List Nat → List Nat
  | _, [] => []
  | 0, _ :: _ => []
  | fuel + 1, v@(_ :: _) =>
    let chunkSize := min 255 v.length
    (if chunkSize = 1 then [verbatimByte] else [verbatimString, chunkSize]) ++
      v.take chunkSize ++ flushLoop fuel (v.drop chunkSize)

/-- Bytes `flushVerbatim` in `smaz.go` appends to the output for a verbatim
buffer `v` (the Go function returns `out ++ flushChunks v`). -/
def flushChunks (v : List Nat) : List Nat := flushLoop v.length v

/-- `flushVerbatim(out, verbatim)` from `smaz.go`. -/
def flushVerbatim (out v : List Nat) : List Nat := out ++ flushChunks v

/-- Main loop of `Compress` in `smaz.go`, over the remaining input and the
pending verbatim buffer; returns the output bytes still to be emitted.
Fuel is the loop variant `inputLen - i` (the cursor advances by at least one
byte per pass, so `input.length` fuel always suffices). -/
def compressLoop : Nat → List Nat → List Nat → List Nat
  | _, [], v => if v.isEmpty then [] else flushChunks v
  | 0, _ :: _, v => if v.isEmpty then [] else flushChunks v
  | fuel + 1, b :: rest, v =>
    let m := matchAt (b :: rest)
    if 0 < m.1 then
      (if v.isEmpty then [] else flushChunks v) ++
        m.2 :: compressLoop fuel ((b :: rest).drop m.1) []
    else
      let v2 := v ++ [b]
      if v2.length = 255 then flushChunks v2 ++ compressLoop fuel rest []
      else compressLoop fuel rest v2

/-- `Compress` from `smaz.go` on a non-nil slice: run the loop with an empty
verbatim buffer. -/
def compress (input : List Nat) : List Nat := compressLoop input.length input []

/-- Errors of the Go implementation (`SmazError` values in `smaz.go`);
`nilInput` is the `"input cannot be nil"` rejection, the other constructors
are the decoder's error messages in order of appearance. -/
inductive SmazError where
  | nilInput
  | incompleteVerbatimByte
  | incompleteVerbatimLength
  | incompleteVerbatimData
  | invalidCode
deriving DecidableEq

/-- `Compress` from `smaz.go` including the nil check: a Go byte slice is
either nil (`none`) or a sequence of bytes (`some l`). -/
def Compress : Option (List Nat) → Except SmazError (List Nat)
  | none => .error .nilInput
  | some l => .ok (compress l)

/-- Main loop of `Decompress` in `smaz.go`: one token per pass.  Fuel is the
loop variant `inputLen - i` (each token consumes at least one byte, so
`input.length` fuel always suffices; the fuel-exhausted branch is
unreachable). -/
def decompressLoop : Nat → List Nat → Except SmazError (List Nat)
  | _, [] => .ok []
  | 0, _ :: _ => .ok []
  | fuel + 1, c :: rest =>
    if c = verbatimByte then
      match rest with
      | [] => .error .incompleteVerbatimByte
      | b :: rest2 => (fun o => b :: o) <$> decompressLoop fuel rest2
    else if c = verbatimString then
      match rest with
      | [] => .error .incompleteVerbatimLength
      | len :: rest2 =>
        if rest2.length < len then .error .incompleteVerbatimData
        else (fun o => rest2.take len ++ o) <$> decompressLoop fuel (rest2.drop len)
    else
      if c < decodeMap.length then
        (fun o => decodeMap.getD c [] ++ o) <$> decompressLoop fuel rest
      else .error .invalidCode

/-- `Decompress` from `smaz.go` on a non-nil slice. -/
def decompress (input : List Nat) : Except SmazError (List Nat) :=
  decompressLoop input.length input

/-- `Decompress` from `smaz.go` including the nil check. -/
def Decompress : Option (List Nat) → Except SmazError (List Nat)
  | none => .error .nilInput
  | some l => decompress l

/-! ### Basic facts about the codebook and `Except` -/

lemma decodeMap_length : decodeMap.length = 254 := by decide

lemma decodeMap_entry_bounds : ∀ e ∈ decodeMap, 1 ≤ e.length ∧ e.length ≤ 7 := by decide

lemma exMap_ok {ε α β : Type} (f : α → β) (a : α) :
    Except.map f (Except.ok a : Except ε α) = .ok (f a) := rfl

lemma exMap_error {ε α β : Type} (f : α → β) (e : ε) :
    Except.map f (Except.error e : Except ε α) = .error e := rfl

/-! ### One-step equations and fuel irrelevance for the decoder -/

lemma decompressLoop_nil (f : Nat) : decompressLoop f [] = .ok [] := by
  cases f <;> rfl

lemma decompressLoop_vb_cons (f b : Nat) (rest : List Nat) :
    decompressLoop (f + 1) (verbatimByte :: b :: rest) =
      Except.map (fun o => b :: o) (decompressLoop f rest) := rfl

lemma decompressLoop_vb_nil (f : Nat) :
    decompressLoop (f + 1) [verbatimByte] = .error .incompleteVerbatimByte := rfl

lemma decompressLoop_vs_cons (f len : Nat) (rest2 : List Nat) :
    decompressLoop (f + 1) (verbatimString :: len :: rest2) =
      if rest2.length < len then .error .incompleteVerbatimData
      else Except.map (fun o => rest2.take len ++ o)
        (decompressLoop f (rest2.drop len)) := rfl

lemma decompressLoop_vs_nil (f : Nat) :
    decompressLoop (f + 1) [verbatimString] = .error .incompleteVerbatimLength := rfl

lemma decompressLoop_succ (f c : Nat) (rest : List Nat) :
    decompressLoop (f + 1) (c :: rest) =
      if c = verbatimByte then
        match rest with
        | [] => .error .incompleteVerbatimByte
        | b :: rest2 => Except.map (fun o => b :: o) (decompressLoop f rest2)
      else if c = verbatimString then
        match rest with
        | [] => .error .incompleteVerbatimLength
        | len :: rest2 =>
          if rest2.length < len then .error .incompleteVerbatimData
          else Except.map (fun o => rest2.take len ++ o)
            (decompressLoop f (rest2.drop len))
      else if c < decodeMap.length then
        Except.map (fun o => decodeMap.getD c [] ++ o) (decompressLoop f rest)
      else .error .invalidCode := rfl

lemma decompressLoop_code (f c : Nat) (rest : List Nat)
    (h1 : c ≠ verbatimByte) (h2 : c ≠ verbatimString) :
    decompressLoop (f + 1) (c :: rest) =
      if c < decodeMap.length then
        Except.map (fun o => decodeMap.getD c [] ++ o) (decompressLoop f rest)
      else .error .invalidCode := by
  rw [decompressLoop_succ, if_neg h1, if_neg h2]

lemma decompressLoop_congr : ∀ f1 f2 l, l.length ≤ f1 → l.length ≤ f2 →
    decompressLoop f1 l = decompressLoop f2 l := by
  intro f1
  induction f1 with
  | zero =>
    intro f2 l h1 _
    have hl : l = [] := List.eq_nil_of_length_eq_zero (Nat.le_zero.mp h1)
    subst hl; rw [decompressLoop_nil, decompressLoop_nil]
  | succ g ih =>
    intro f2 l h1 h2
    match l, f2 with
    | [], f2 => rw [decompressLoop_nil, decompressLoop_nil]
    | c :: rest, 0 => simp at h2
    | c :: rest, g2 + 1 =>
      simp only [List.length_cons, Nat.add_le_add_iff_right] at h1 h2
      by_cases hc1 : c = verbatimByte
      · subst hc1
        cases rest with
        | nil => rw [decompressLoop_vb_nil, decompressLoop_vb_nil]
        | cons b rest2 =>
          rw [decompressLoop_vb_cons, decompressLoop_vb_cons,
              ih g2 rest2 (by simp at h1; omega) (by simp at h2; omega)]
      · by_cases hc2 : c = verbatimString
        · subst hc2
          cases rest with
          | nil => rw [decompressLoop_vs_nil, decompressLoop_vs_nil]
          | cons len rest2 =>
            rw [decompressLoop_vs_cons, decompressLoop_vs_cons]
            by_cases hl : rest2.length < len
            · rw [if_pos hl, if_pos hl]
            · rw [if_neg hl, if_neg hl,
                  ih g2 (rest2.drop len)
                    (by simp at h1 ⊢; omega) (by simp at h2 ⊢; omega)]
        · rw [decompressLoop_code g c rest hc1 hc2, decompressLoop_code g2 c rest hc1 hc2]
          by_cases hc3 : c < decodeMap.length
          · rw [if_pos hc3, if_pos hc3, ih g2 rest h1 h2]
          · rw [if_neg hc3, if_neg hc3]

/-! ### Step equations for `decompress` itself -/

lemma decompress_nil : decompress [] = .ok [] := rfl

lemma decompress_vb (b : Nat) (rest : List Nat) :
    decompress (verbatimByte :: b :: rest) =
      Except.map (fun o => b :: o) (decompress rest) := by
  show decompressLoop (rest.length + 1 + 1) (verbatimByte :: b :: rest) = _
  rw [decompressLoop_vb_cons,
      decompressLoop_congr (rest.length + 1) rest.length rest (by omega) (le_refl _)]
  rfl

lemma decompress_vb_nil : decompress [verbatimByte] = .error .incompleteVerbatimByte := rfl

lemma decompress_vs (len : Nat) (rest2 : List Nat) (h : len ≤ rest2.length) :
    decompress (verbatimString :: len :: rest2) =
      Except.map (fun o => rest2.take len ++ o) (decompress (rest2.drop len)) := by
  show decompressLoop (rest2.length + 1 + 1) (verbatimString :: len :: rest2) = _
  rw [decompressLoop_vs_cons, if_neg (Nat.not_lt.mpr h),
      decompressLoop_congr (rest2.length + 1) (rest2.drop len).length (rest2.drop len)
        (by simp; omega) (le_refl _)]
  rfl

lemma decompress_vs_nil : decompress [verbatimString] = .error .incompleteVerbatimLength := rfl

lemma decompress_vs_short (len : Nat) (rest2 : List Nat) (h : rest2.length < len) :
    decompress (verbatimString :: len :: rest2) = .error .incompleteVerbatimData := by
  show decompressLoop (rest2.length + 1 + 1) (verbatimString :: len :: rest2) = _
  rw [decompressLoop_vs_cons, if_pos h]

lemma decompress_code (c : Nat) (rest : List Nat) (h : c < 254) :
    decompress (c :: rest) =
      Except.map (fun o => decodeMap.getD c [] ++ o) (decompress rest) := by
  show decompressLoop (rest.length + 1) (c :: rest) = _
  have h1 : c ≠ verbatimByte := by simp only [verbatimByte]; omega
  have h2 : c ≠ verbatimString := by simp only [verbatimString]; omega
  have h3 : c < decodeMap.length := by rw [decodeMap_length]; exact h
  rw [decompressLoop_code rest.length c rest h1 h2, if_pos h3]
  rfl

lemma decompress_code_bad (c : Nat) (rest : List Nat)
    (h1 : c ≠ 254) (h2 : c ≠ 255) (h3 : 254 ≤ c) :
    decompress (c :: rest) = .error .invalidCode := by
  show decompressLoop (rest.length + 1) (c :: rest) = _
  have h3' : ¬ c < decodeMap.length := by rw [decodeMap_length]; omega
  rw [decompressLoop_code rest.length c rest h1 h2, if_neg h3']

/-! ### Flushing the verbatim buffer -/

lemma flushLoop_nil (f : Nat) : flushLoop f [] = [] := by cases f <;> rfl

lemma flushLoop_succ (f b : Nat) (rest : List Nat) :
    flushLoop (f + 1) (b :: rest) =
      (if min 255 (b :: rest).length = 1 then [verbatimByte]
       else [verbatimString, min 255 (b :: rest).length]) ++
        (b :: rest).take (min 255 (b :: rest).length) ++
        flushLoop f ((b :: rest).drop (min 255 (b :: rest).length)) := rfl

lemma flushChunks_small (v : List Nat) (h1 : 1 ≤ v.length) (h2 : v.length ≤ 255) :
    flushChunks v =
      (if v.length = 1 then [verbatimByte] else [verbatimString, v.length]) ++ v := by
  cases v with
  | nil => simp at h1
  | cons b rest =>
    show flushLoop (rest.length + 1) (b :: rest) = _
    rw [flushLoop_succ]
    have hmin : min 255 (b :: rest).length = (b :: rest).length := by
      simp at h2 ⊢; omega
    rw [hmin, List.take_length, List.drop_length, flushLoop_nil, List.append_nil]

lemma decompress_flushChunks (v rest : List Nat) (h1 : 1 ≤ v.length) (h2 : v.length ≤ 255) :
    decompress (flushChunks v ++ rest) = Except.map (fun o => v ++ o) (decompress rest) := by
  rw [flushChunks_small v h1 h2]
  by_cases h : v.length = 1
  · obtain ⟨b, hb⟩ : ∃ b, v = [b] := by
      cases v with
      | nil => simp at h1
      | cons b t =>
        cases t with
        | nil => exact ⟨b, rfl⟩
        | cons x y => simp at h
    subst hb
    rw [if_pos h, show ([verbatimByte] ++ [b] ++ rest) = verbatimByte :: b :: rest by simp,
        decompress_vb]
    rfl
  · rw [if_neg h, show ([verbatimString, v.length] ++ v ++ rest) =
          verbatimString :: v.length :: (v ++ rest) by simp,
        decompress_vs v.length (v ++ rest) (by simp),
        List.take_left, List.drop_left]

/-! ### The decoder is a homomorphism over concatenation -/

lemma decompress_append_aux : ∀ n a b ra, a.length ≤ n → decompress a = .ok ra →
    decompress (a ++ b) = Except.map (fun rb => ra ++ rb) (decompress b) := by
  intro n
  induction n with
  | zero =>
    intro a b ra h1 h2
    have hl : a = [] := List.eq_nil_of_length_eq_zero (Nat.le_zero.mp h1)
    subst hl
    rw [decompress_nil] at h2
    have : ra = [] := by injection h2 with h; exact h.symm
    subst this
    cases hb : decompress b <;> simp [exMap_ok, exMap_error, hb]
  | succ g ih =>
    intro a b ra h1 h2
    match a with
    | [] =>
      rw [decompress_nil] at h2
      have : ra = [] := by injection h2 with h; exact h.symm
      subst this
      cases hb : decompress b <;> simp [exMap_ok, exMap_error, hb]
    | c :: rest =>
      simp only [List.length_cons, Nat.add_le_add_iff_right] at h1
      by_cases hc1 : c = verbatimByte
      · subst hc1
        cases rest with
        | nil => rw [decompress_vb_nil] at h2; exact absurd h2 (by simp)
        | cons b0 rest2 =>
          rw [decompress_vb] at h2
          cases hr2 : decompress rest2 with
          | error e => rw [hr2, exMap_error] at h2; exact absurd h2 (by simp)
          | ok r2 =>
            rw [hr2, exMap_ok] at h2
            have hra : ra = b0 :: r2 := by injection h2 with h; exact h.symm
            subst hra
            rw [show ((verbatimByte :: b0 :: rest2) ++ b) =
                  verbatimByte :: b0 :: (rest2 ++ b) by simp,
                decompress_vb,
                ih rest2 b r2 (by simp at h1; omega) hr2]
            cases hb : decompress b <;> simp [exMap_ok, exMap_error, hb]
      · by_cases hc2 : c = verbatimString
        · subst hc2
          cases rest with
          | nil => rw [decompress_vs_nil] at h2; exact absurd h2 (by simp)
          | cons len rest2 =>
            by_cases hlen : rest2.length < len
            · rw [decompress_vs_short len rest2 hlen] at h2
              exact absurd h2 (by simp)
            · have hlen' : len ≤ rest2.length := Nat.not_lt.mp hlen
              rw [decompress_vs len rest2 hlen'] at h2
              cases hr2 : decompress (rest2.drop len) with
              | error e => rw [hr2, exMap_error] at h2; exact absurd h2 (by simp)
              | ok r2 =>
                rw [hr2, exMap_ok] at h2
                have hra : ra = rest2.take len ++ r2 := by injection h2 with h; exact h.symm
                subst hra
                rw [show ((verbatimString :: len :: rest2) ++ b) =
                      verbatimString :: len :: (rest2 ++ b) by simp,
                    decompress_vs len (rest2 ++ b) (by simp; omega),
                    List.take_append_of_le_length hlen',
                    List.drop_append_of_le_length hlen',
                    ih (rest2.drop len) b r2 (by simp at h1 ⊢; omega) hr2]
                cases hb : decompress b <;> simp [exMap_ok, exMap_error, hb]
        · by_cases hc3 : c < 254
          · rw [decompress_code c rest hc3] at h2
            cases hr2 : decompress rest with
            | error e => rw [hr2, exMap_error] at h2; exact absurd h2 (by simp)
            | ok r2 =>
              rw [hr2, exMap_ok] at h2
              have hra : ra = decodeMap.getD c [] ++ r2 := by injection h2 with h; exact h.symm
              subst hra
              rw [List.cons_append, decompress_code c (rest ++ b) hc3,
                  ih rest b r2 h1 hr2]
              cases hb : decompress b <;> simp [exMap_ok, exMap_error, hb]
          · rw [decompress_code_bad c rest hc1 hc2 (by omega)] at h2
            exact absurd h2 (by simp)

lemma decompress_append (a b : List Nat) (ra : List Nat) (h : decompress a = .ok ra) :
    decompress (a ++ b) = Except.map (fun rb => ra ++ rb) (decompress b) :=
  decompress_append_aux a.length a b ra (Nat.le_refl _) h

/-! ### Trie correctness -/

/-- Semantic lookup in a trie: the code stored at the exact key, if any. -/
def trieFind : trieNode → List Nat → Option Nat
  | t, [] => if t.terminal then some t.val else none
  | t, c :: cs =>
    match t.branch c with
    | none => none
    | some t2 => trieFind t2 cs

lemma lookup_setBranch_self (br : List (Nat × trieNode)) (c : Nat) (t : trieNode) :
    (setBranch br c t).lookup c = some t := by
  induction br with
  | nil => simp [setBranch, List.lookup]
  | cons p rest ih =>
    obtain ⟨c0, t0⟩ := p
    by_cases h : c0 = c
    · subst h; simp [setBranch, List.lookup]
    · simp only [setBranch, if_neg h, List.lookup]
      rw [show (c == c0) = false from beq_eq_false_iff_ne.mpr (Ne.symm h)]
      exact ih

lemma lookup_setBranch_ne (br : List (Nat × trieNode)) (c d : Nat) (t : trieNode)
    (h : d ≠ c) : (setBranch br c t).lookup d = br.lookup d := by
  induction br with
  | nil =>
    simp only [setBranch, List.lookup]
    rw [show (d == c) = false from beq_eq_false_iff_ne.mpr h]
  | cons p rest ih =>
    obtain ⟨c0, t0⟩ := p
    by_cases h0 : c0 = c
    · subst h0
      simp only [setBranch, if_pos rfl, List.lookup]
      rw [show (d == c0) = false from beq_eq_false_iff_ne.mpr h]
    · simp only [setBranch, if_neg h0, List.lookup]
      cases hbe : (d == c0) with
      | false => exact ih
      | true => rfl

lemma trieFind_emptyNode : ∀ k, trieFind emptyNode k = none
  | [] => rfl
  | _ :: _ => rfl

lemma trieFind_put_self : ∀ (k : List Nat) (t : trieNode) (v : Nat),
    trieFind (trieNode.put t k v) k = some v := by
  intro k
  induction k with
  | nil => intro t v; obtain ⟨br, v0, t0⟩ := t; rfl
  | cons c cs ih =>
    intro t v
    obtain ⟨br, v0, t0⟩ := t
    show trieFind (.node (setBranch br c
      (trieNode.put ((br.lookup c).getD emptyNode) cs v)) v0 t0) (c :: cs) = some v
    simp only [trieFind, trieNode.branch, trieNode.branches, lookup_setBranch_self]
    exact ih _ _

lemma trieFind_put_ne : ∀ (k k' : List Nat) (t : trieNode) (v : Nat), k' ≠ k →
    trieFind (trieNode.put t k v) k' = trieFind t k' := by
  intro k
  induction k with
  | nil =>
    intro k' t v h
    obtain ⟨br, v0, t0⟩ := t
    cases k' with
    | nil => exact absurd rfl h
    | cons c' cs' => rfl
  | cons c cs ih =>
    intro k' t v h
    obtain ⟨br, v0, t0⟩ := t
    cases k' with
    | nil => rfl
    | cons c' cs' =>
      show trieFind (.node (setBranch br c
        (trieNode.put ((br.lookup c).getD emptyNode) cs v)) v0 t0) (c' :: cs') = _
      by_cases hc : c' = c
      · subst hc
        simp only [trieFind, trieNode.branch, trieNode.branches, lookup_setBranch_self]
        have hcs : cs' ≠ cs := fun e => h (by rw [e])
        rw [ih cs' _ v hcs]
        cases hb : br.lookup c' with
        | none => simp [hb, trieFind_emptyNode]
        | some t2 => simp [hb]
      · simp only [trieFind, trieNode.branch, trieNode.branches,
          lookup_setBranch_ne br c c' _ hc]

lemma trieFind_foldl_put : ∀ (ps : List (Nat × List Nat)) (t : trieNode) (k : List Nat),
    trieFind (ps.foldl (fun t p => trieNode.put t p.2 p.1) t) k =
      match ps.reverse.find? (fun p => p.2 == k) with
      | some p => some p.1
      | none => trieFind t k := by
  intro ps
  induction ps with
  | nil => intro t k; rfl
  | cons p rest ih =>
    intro t k
    rw [List.foldl_cons, ih, List.reverse_cons, List.find?_append]
    cases hr : rest.reverse.find? (fun p => p.2 == k) with
    | some q => simp [Option.or]
    | none =>
      simp only [Option.or]
      by_cases hk : p.2 = k
      · rw [← hk, show List.find? (fun q => q.2 == p.2) [p] = some p by
              simp [List.find?]]
        exact trieFind_put_self _ _ _
      · rw [show List.find? (fun q => q.2 == k) [p] = none by
              simp only [List.find?]
              rw [show (p.2 == k) = false from beq_eq_false_iff_ne.mpr hk]]
        exact trieFind_put_ne _ _ _ _ (fun e => hk e.symm)

lemma codeTrie_find (k : List Nat) :
    trieFind codeTrie k =
      match decodeMap.enum.reverse.find? (fun p => p.2 == k) with
      | some p => some p.1
      | none => none := by
  show trieFind (decodeMap.enum.foldl (fun t p => trieNode.put t p.2 p.1) emptyNode) k = _
  rw [trieFind_foldl_put]
  cases decodeMap.enum.reverse.find? (fun p => p.2 == k) with
  | some q => rfl
  | none => exact trieFind_emptyNode k

lemma trieFind_mem_decodeMap (k : List Nat) (c : Nat)
    (h : trieFind codeTrie k = some c) : decodeMap.get? c = some k := by
  rw [codeTrie_find] at h
  cases hr : decodeMap.enum.reverse.find? (fun p => p.2 == k) with
  | none => rw [hr] at h; simp at h
  | some q =>
    rw [hr] at h
    have hqc : q.1 = c := by simpa using h
    have hq2 : q.2 = k := by simpa using List.find?_some hr
    have hmem : q ∈ decodeMap.enum := by
      have := List.mem_of_find?_eq_some hr
      simpa [List.mem_reverse] using this
    obtain ⟨i, e⟩ := q
    simp only at hqc hq2
    subst hqc; subst hq2
    exact List.mem_enum_iff_get?.mp hmem

lemma mem_decodeMap_trieFind (k : List Nat) (h : k ∈ decodeMap) :
    trieFind codeTrie k ≠ none := by
  rw [codeTrie_find]
  obtain ⟨i, hi⟩ := List.mem_iff_get?.mp h
  have hmem : (i, k) ∈ decodeMap.enum.reverse := by
    simp only [List.mem_reverse]
    exact List.mem_enum_iff_get?.mpr hi
  cases hr : decodeMap.enum.reverse.find? (fun p => p.2 == k) with
  | some q => simp
  | none =>
    have := List.find?_eq_none.mp hr (i, k) hmem
    simp at this

/-! ### Characterising the longest-prefix search -/

/-- Recursive reading of the longest-prefix walk: the deepest terminal node
along the path spelled by the input, as `(depth, code)`. -/
def findLPRec : trieNode → List Nat → Option (Nat × Nat)
  | _, [] => none
  | t, c :: cs =>
    match t.branch c with
    | none => none
    | some t2 =>
      match findLPRec t2 cs with
      | some p => some (p.1 + 1, p.2)
      | none => if t2.terminal then some (1, t2.val) else none

lemma findLPAux_eq : ∀ (l : List Nat) (t : trieNode) (i : Nat) (acc : Nat × Nat),
    trieNode.findLPAux t l i acc =
      match findLPRec t l with
      | some p => (i + p.1, p.2)
      | none => acc := by
  intro l
  induction l with
  | nil => intro t i acc; rfl
  | cons c cs ih =>
    intro t i acc
    simp only [trieNode.findLPAux, findLPRec]
    cases hb : t.branch c with
    | none => rfl
    | some t2 =>
      dsimp only
      rw [ih]
      cases hr : findLPRec t2 cs with
      | some p =>
        obtain ⟨m, code⟩ := p
        dsimp only
        rw [show i + 1 + m = i + (m + 1) by omega]
      | none =>
        dsimp only
        by_cases ht : t2.terminal <;> simp [ht]

lemma findLPRec_none : ∀ (l : List Nat) (t : trieNode), findLPRec t l = none →
    ∀ j, 0 < j → j ≤ l.length → trieFind t (l.take j) = none := by
  intro l
  induction l with
  | nil => intro t _ j hj1 hj2; simp at hj2; omega
  | cons c cs ih =>
    intro t h j hj1 hj2
    obtain ⟨j', rfl⟩ : ∃ j', j = j' + 1 := ⟨j - 1, by omega⟩
    rw [List.take_succ_cons]
    simp only [findLPRec] at h
    cases hb : t.branch c with
    | none => simp [trieFind, hb]
    | some t2 =>
      rw [hb] at h
      dsimp only at h
      simp only [trieFind, hb]
      cases hr : findLPRec t2 cs with
      | some p => rw [hr] at h; dsimp only at h; simp at h
      | none =>
        rw [hr] at h
        dsimp only at h
        have hterm : t2.terminal = false := by
          by_cases ht : t2.terminal
          · rw [if_pos ht] at h; simp at h
          · simpa using ht
        match j' with
        | 0 => simp [trieFind, hterm]
        | j'' + 1 =>
          exact ih t2 hr (j'' + 1) (by omega) (by simp at hj2 ⊢; omega)

lemma findLPRec_some : ∀ (l : List Nat) (t : trieNode) (m code : Nat),
    findLPRec t l = some (m, code) →
    0 < m ∧ m ≤ l.length ∧ trieFind t (l.take m) = some code ∧
      ∀ j, m < j → j ≤ l.length → trieFind t (l.take j) = none := by
  intro l
  induction l with
  | nil => intro t m code h; simp [findLPRec] at h
  | cons c cs ih =>
    intro t m code h
    simp only [findLPRec] at h
    cases hb : t.branch c with
    | none => rw [hb] at h; dsimp only at h; simp at h
    | some t2 =>
      rw [hb] at h
      dsimp only at h
      cases hr : findLPRec t2 cs with
      | some p =>
        rw [hr] at h
        dsimp only at h
        obtain ⟨m0, code0⟩ := p
        simp only [Option.some.injEq, Prod.mk.injEq] at h
        obtain ⟨hm1, hm2⟩ := h
        subst hm1; subst hm2
        obtain ⟨ih1, ih2, ih3, ih4⟩ := ih t2 m0 code0 hr
        refine ⟨by omega, by simp; omega, ?_, ?_⟩
        · rw [List.take_succ_cons]
          simp only [trieFind, hb]
          exact ih3
        · intro j hj1 hj2
          obtain ⟨j', rfl⟩ : ∃ j', j = j' + 1 := ⟨j - 1, by omega⟩
          rw [List.take_succ_cons]
          simp only [trieFind, hb]
          exact ih4 j' (by omega) (by simp at hj2; omega)
      | none =>
        rw [hr] at h
        dsimp only at h
        by_cases ht : t2.terminal
        · rw [if_pos ht] at h
          simp only [Option.some.injEq, Prod.mk.injEq] at h
          obtain ⟨hm1, hm2⟩ := h
          subst hm1; subst hm2
          refine ⟨by omega, by simp, ?_, ?_⟩
          · rw [List.take_succ_cons]
            simp only [trieFind, hb, List.take_zero]
            simp [trieFind, ht]
          · intro j hj1 hj2
            obtain ⟨j', rfl⟩ : ∃ j', j = j' + 1 := ⟨j - 1, by omega⟩
            rw [List.take_succ_cons]
            simp only [trieFind, hb]
            exact findLPRec_none cs t2 hr j' (by omega) (by simp at hj2; omega)
        · rw [if_neg ht] at h; simp at h

/-! ### The match query of the encoder -/

lemma matchAt_eq (l : List Nat) :
    matchAt l =
      match findLPRec codeTrie (l.take 7) with
      | some p => p
      | none => (0, 0) := by
  show trieNode.findLPAux codeTrie (l.take 7) 0 (0, 0) = _
  rw [findLPAux_eq]
  cases findLPRec codeTrie (l.take 7) with
  | some p => simp
  | none => rfl

lemma matchAt_pos (l : List Nat) (h : 0 < (matchAt l).1) :
    decodeMap.get? (matchAt l).2 = some (l.take (matchAt l).1) ∧
      (matchAt l).1 ≤ 7 ∧ (matchAt l).1 ≤ l.length := by
  cases hr : findLPRec codeTrie (l.take 7) with
  | none => rw [matchAt_eq, hr] at h; simp at h
  | some p =>
    have hm : matchAt l = p := by rw [matchAt_eq, hr]
    obtain ⟨m, code⟩ := p
    obtain ⟨h1, h2, h3, _⟩ := findLPRec_some _ _ _ _ hr
    have hm7 : m ≤ 7 := le_trans h2 (by simp [List.length_take])
    have hml : m ≤ l.length := le_trans h2 (by simp [List.length_take])
    have htt : (l.take 7).take m = l.take m := by
      rw [List.take_take, show min m 7 = m by omega]
    rw [htt] at h3
    rw [hm]
    exact ⟨trieFind_mem_decodeMap _ _ h3, hm7, hml⟩

lemma matchAt_maximal (l : List Nat) (e : List Nat) (he : e ∈ decodeMap)
    (hp : e <+: l) : e.length ≤ (matchAt l).1 := by
  by_contra hlt
  push_neg at hlt
  have hb := decodeMap_entry_bounds e he
  have hel : e.length ≤ l.length := hp.length_le
  have hetake : e = l.take e.length := List.prefix_iff_eq_take.mp hp
  have hfind : trieFind codeTrie (l.take e.length) ≠ none := by
    rw [← hetake]; exact mem_decodeMap_trieFind e he
  rw [matchAt_eq] at hlt
  cases hr : findLPRec codeTrie (l.take 7) with
  | none =>
    have hnone := findLPRec_none _ _ hr e.length (by omega)
      (by simp [List.length_take]; omega)
    rw [List.take_take, show min e.length 7 = e.length by omega] at hnone
    exact hfind hnone
  | some p =>
    rw [hr] at hlt
    obtain ⟨m, code⟩ := p
    obtain ⟨_, _, _, hmax⟩ := findLPRec_some _ _ _ _ hr
    have hnone := hmax e.length (by simpa using hlt)
      (by simp [List.length_take]; omega)
    rw [List.take_take, show min e.length 7 = e.length by omega] at hnone
    exact hfind hnone

lemma matchAt_zero (l : List Nat) (h : ∀ e ∈ decodeMap, ¬ e <+: l) :
    (matchAt l).1 = 0 := by
  by_contra h0
  obtain ⟨hget, _, _⟩ := matchAt_pos l (Nat.pos_of_ne_zero h0)
  exact h _ (List.get?_mem hget) (List.take_prefix _ _)

/-! ### Step equations for the encoder loop -/

lemma compressLoop_nil (f : Nat) (v : List Nat) :
    compressLoop f [] v = if v.isEmpty then [] else flushChunks v := by
  cases f <;> rfl

lemma compressLoop_succ (f b : Nat) (rest v : List Nat) :
    compressLoop (f + 1) (b :: rest) v =
      if 0 < (matchAt (b :: rest)).1 then
        (if v.isEmpty then [] else flushChunks v) ++
          (matchAt (b :: rest)).2 ::
            compressLoop f ((b :: rest).drop (matchAt (b :: rest)).1) []
      else
        if (v ++ [b]).length = 255 then flushChunks (v ++ [b]) ++ compressLoop f rest []
        else compressLoop f rest (v ++ [b]) := rfl

/-- Decoding the flush of a (possibly empty) verbatim buffer of at most 255
bytes recovers the buffer. -/
lemma decompress_flushTail (v : List Nat) (h2 : v.length ≤ 255) :
    decompress (if v.isEmpty then [] else flushChunks v) = .ok v := by
  by_cases hv : v.isEmpty
  · rw [if_pos hv, List.isEmpty_iff.mp hv, decompress_nil]
  · rw [if_neg hv]
    have hv1 : 1 ≤ v.length := by
      cases v with
      | nil => simp at hv
      | cons x y => simp
    rw [show flushChunks v = flushChunks v ++ [] from (List.append_nil _).symm,
        decompress_flushChunks v [] hv1 h2, decompress_nil, exMap_ok, List.append_nil]

/-- Main loop invariant for the round trip: decoding the remaining output
recovers the pending verbatim buffer followed by the remaining input. -/
lemma compressLoop_roundtrip : ∀ f l v, l.length ≤ f → v.length ≤ 254 →
    decompress (compressLoop f l v) = .ok (v ++ l) := by
  intro f
  induction f with
  | zero =>
    intro l v h1 h2
    have hl : l = [] := List.eq_nil_of_length_eq_zero (Nat.le_zero.mp h1)
    subst hl
    rw [compressLoop_nil, List.append_nil]
    exact decompress_flushTail v (by omega)
  | succ g ih =>
    intro l v h1 h2
    cases l with
    | nil =>
      rw [compressLoop_nil, List.append_nil]
      exact decompress_flushTail v (by omega)
    | cons b rest =>
      simp only [List.length_cons, Nat.add_le_add_iff_right] at h1
      rw [compressLoop_succ]
      by_cases hm : 0 < (matchAt (b :: rest)).1
      · rw [if_pos hm]
        obtain ⟨hget, hm7, hml⟩ := matchAt_pos _ hm
        have hcode : (matchAt (b :: rest)).2 < 254 := by
          have h' := hget
          rw [List.get?_eq_some] at h'
          obtain ⟨hlt, _⟩ := h'
          rw [decodeMap_length] at hlt
          exact hlt
        have hentry : decodeMap.getD (matchAt (b :: rest)).2 [] =
            (b :: rest).take (matchAt (b :: rest)).1 := by
          have : decodeMap.getD (matchAt (b :: rest)).2 [] =
              (decodeMap.get? (matchAt (b :: rest)).2).getD [] := rfl
          rw [this, hget]
          rfl
        have hdroplen : ((b :: rest).drop (matchAt (b :: rest)).1).length ≤ g := by
          simp only [List.length_drop, List.length_cons]
          omega
        have hrec := ih ((b :: rest).drop (matchAt (b :: rest)).1) [] hdroplen (by simp)
        by_cases hv : v.isEmpty
        · rw [if_pos hv, List.isEmpty_iff.mp hv, List.nil_append, List.nil_append,
              decompress_code _ _ hcode, hrec, exMap_ok, hentry, List.nil_append,
              List.take_append_drop]
        · rw [if_neg hv]
          have hv1 : 1 ≤ v.length := by
            cases v with
            | nil => simp at hv
            | cons x y => simp
          rw [decompress_flushChunks v _ hv1 (by omega),
              decompress_code _ _ hcode, hrec, exMap_ok, exMap_ok, hentry,
              List.nil_append, List.take_append_drop]
      · rw [if_neg hm]
        by_cases h255 : (v ++ [b]).length = 255
        · rw [if_pos h255,
              decompress_flushChunks (v ++ [b]) _ (by simp) (by omega),
              ih rest [] (by omega) (by simp), exMap_ok]
          simp
        · rw [if_neg h255]
          have hvb : (v ++ [b]).length ≤ 254 := by
            simp only [List.length_append, List.length_singleton] at h255 ⊢
            omega
          rw [ih rest (v ++ [b]) (by omega) hvb]
          simp

/-- Round trip at the top level: `Decompress(Compress(S)) = S`. -/
lemma compress_roundtrip (l : List Nat) : decompress (compress l) = .ok l := by
  have h := compressLoop_roundtrip l.length l [] (le_refl _) (by simp)
  simpa using h

/-! ### Runs of unmatched bytes -/

/-- When no codebook entry matches anywhere and the buffer plus input fit in
one chunk, the loop just accumulates everything and flushes once. -/
lemma compressLoop_allVerbatim : ∀ f l v, l.length ≤ f →
    (∀ i, i < l.length → ∀ e ∈ decodeMap, ¬ e <+: l.drop i) →
    v.length + l.length ≤ 255 → 0 < v.length + l.length →
    compressLoop f l v = flushChunks (v ++ l) := by
  intro f
  induction f with
  | zero =>
    intro l v h1 _ _ h4
    have hl : l = [] := List.eq_nil_of_length_eq_zero (Nat.le_zero.mp h1)
    subst hl
    have hvne : v.isEmpty = false := by
      cases v with
      | nil => simp at h4
      | cons a t => rfl
    rw [compressLoop_nil, hvne, if_neg Bool.false_ne_true, List.append_nil]
  | succ g ih =>
    intro l v h1 hnm h3 h4
    cases l with
    | nil =>
      have hvne : v.isEmpty = false := by
        cases v with
        | nil => simp at h4
        | cons a t => rfl
      rw [compressLoop_nil, hvne, if_neg Bool.false_ne_true, List.append_nil]
    | cons b rest =>
      simp only [List.length_cons, Nat.add_le_add_iff_right] at h1
      have hm0 : (matchAt (b :: rest)).1 = 0 :=
        matchAt_zero _ (by simpa using hnm 0 (by simp))
      rw [compressLoop_succ, if_neg (by omega)]
      by_cases h255 : (v ++ [b]).length = 255
      · rw [if_pos h255]
        have hrest : rest = [] := by
          apply List.eq_nil_of_length_eq_zero
          simp only [List.length_append, List.length_singleton] at h255
          simp only [List.length_cons] at h3
          omega
        subst hrest
        rw [compressLoop_nil]
        simp
      · rw [if_neg h255,
            ih rest (v ++ [b])
              (by omega)
              (fun i hi => by simpa using hnm (i + 1) (by simp at hi ⊢; omega))
              (by simp at h3 ⊢; omega)
              (by simp)]
        congr 1
        simp

/-- When no codebook entry matches and the buffer is topped up to exactly
255 bytes by a prefix `xs` of the input, that chunk is flushed mid-loop and
the loop restarts on the remaining input with an empty buffer. -/
lemma compressLoop_fill255 : ∀ xs ys v f, (xs ++ ys).length ≤ f →
    (∀ i, i < xs.length → ∀ e ∈ decodeMap, ¬ e <+: (xs ++ ys).drop i) →
    v.length + xs.length = 255 → v.length ≤ 254 →
    compressLoop f (xs ++ ys) v =
      flushChunks (v ++ xs) ++ compressLoop (f - xs.length) ys [] := by
  intro xs
  induction xs with
  | nil => intro ys v f _ _ h3 h4; simp at h3; omega
  | cons x xs' ih =>
    intro ys v f h1 h2 h3 h4
    obtain ⟨g, rfl⟩ : ∃ g, f = g + 1 := by
      cases f with
      | zero => simp at h1
      | succ g => exact ⟨g, rfl⟩
    rw [show ((x :: xs') ++ ys) = x :: (xs' ++ ys) from rfl, compressLoop_succ]
    have hm0 : (matchAt (x :: (xs' ++ ys))).1 = 0 :=
      matchAt_zero _ (by simpa using h2 0 (by simp))
    rw [if_neg (by omega)]
    cases xs' with
    | nil =>
      have h255 : (v ++ [x]).length = 255 := by
        simp only [List.length_cons, List.length_nil] at h3
        simp only [List.length_append, List.length_singleton]
        omega
      rw [if_pos h255]
      simp only [List.nil_append, List.length_cons, List.length_nil]
      rfl
    | cons x2 xs'' =>
      have h255 : ¬ (v ++ [x]).length = 255 := by
        simp only [List.length_cons] at h3
        simp only [List.length_append, List.length_singleton]
        omega
      rw [if_neg h255,
          ih ys (v ++ [x]) g
            (by simp only [List.length_cons, List.length_append] at h1 ⊢; omega)
            (fun i hi => by simpa using h2 (i + 1) (by simp at hi ⊢; omega))
            (by simp only [List.length_cons] at h3 ⊢
                simp only [List.length_append, List.length_singleton]
                omega)
            (by simp only [List.length_cons] at h3
                simp only [List.length_append, List.length_singleton]
                omega)]
      congr 1
      · congr 1
        simp
      · congr 1
        simp only [List.length_cons]
        omega

/-! ### The PHP implementation (`smaz.php`) -/

/-- `Smaz::VERBATIM_BYTE` from `smaz.php`. -/
def Smaz.VERBATIM_BYTE : Nat := 254

/-- `Smaz::VERBATIM_STRING` from `smaz.php`. -/
def Smaz.VERBATIM_STRING : Nat := 255

/-- Exceptions thrown by `Smaz::decompress` in `smaz.php`
(`RuntimeException` values, named after their messages). -/
inductive PhpError where
  | incompleteVerbatimByte
  | incompleteVerbatimLength
  | incompleteVerbatimData
  | invalidCode
deriving DecidableEq

/-- PHP's `$encodeMap = array_flip(self::$decodeMap)` from `smaz.php`: maps
an entry to its index; on duplicate values `array_flip` keeps the last
index, modelled by looking up in the reversed enumeration. -/
def Smaz.encodeMap : List (List Nat × Nat) :=
  (decodeMap.enum.map (fun p => (p.2, p.1))).reverse

/-- The inner scan of `Smaz::compress`: `for ($j = $maxLen; $j > 0; $j--)`,
returning the first (hence longest) chunk present in the encode map together
with its code. -/
def Smaz.findMatch (input : List Nat) : Nat → Option (Nat × Nat)
  | 0 => none
  | j + 1 =>
    match Smaz.encodeMap.lookup (input.take (j + 1)) with
    | some code => some (j + 1, code)
    | none => Smaz.findMatch input j

/-- Loop body of `Smaz::flushVerbatim` from `smaz.php` (chunks of at most
255 bytes, escape 254 for single bytes, 255+length otherwise). -/
def Smaz.flushLoop : Nat → List Nat → List Nat
  | _, [] => []
  | 0, _ :: _ => []
  | fuel + 1, v@(_ :: _) =>
    let chunkSize := min 255 v.length
    (if chunkSize = 1 then [Smaz.VERBATIM_BYTE] else [Smaz.VERBATIM_STRING, chunkSize]) ++
      v.take chunkSize ++ Smaz.flushLoop fuel (v.drop chunkSize)

/-- `Smaz::flushVerbatim` from `smaz.php` (returns the encoded chunk bytes). -/
def Smaz.flushVerbatim (v : List Nat) : List Nat := Smaz.flushLoop v.length v

/-- Main loop of `Smaz::compress` from `smaz.php`. -/
def Smaz.compressLoop : Nat → List Nat → List Nat → List Nat
  | _, [], v => if v.isEmpty then [] else Smaz.flushVerbatim v
  | 0, _ :: _, v => if v.isEmpty then [] else Smaz.flushVerbatim v
  | fuel + 1, b :: rest, v =>
    match Smaz.findMatch (b :: rest) (min 7 (b :: rest).length) with
    | some jc =>
      (if v.isEmpty then [] else Smaz.flushVerbatim v) ++
        jc.2 :: Smaz.compressLoop fuel ((b :: rest).drop jc.1) []
    | none =>
      let v2 := v ++ [b]
      if v2.length = 255 then Smaz.flushVerbatim v2 ++ Smaz.compressLoop fuel rest []
      else Smaz.compressLoop fuel rest v2

/-- `Smaz::compress` from `smaz.php`. -/
def Smaz.compress (input : List Nat) : List Nat :=
  Smaz.compressLoop input.length input []

/-- Main loop of `Smaz::decompress` from `smaz.php` (the `$decodeMap` table
is the identical literal table shared with the Go file). -/
def Smaz.decompressLoop : Nat → List Nat → Except PhpError (List Nat)
  | _, [] => .ok []
  | 0, _ :: _ => .ok []
  | fuel + 1, c :: rest =>
    if c = Smaz.VERBATIM_BYTE then
      match rest with
      | [] => .error .incompleteVerbatimByte
      | b :: rest2 => Except.map (fun o => b :: o) (Smaz.decompressLoop fuel rest2)
    else if c = Smaz.VERBATIM_STRING then
      match rest with
      | [] => .error .incompleteVerbatimLength
      | len :: rest2 =>
        if rest2.length < len then .error .incompleteVerbatimData
        else Except.map (fun o => rest2.take len ++ o)
          (Smaz.decompressLoop fuel (rest2.drop len))
    else
      if c < decodeMap.length then
        Except.map (fun o => decodeMap.getD c [] ++ o) (Smaz.decompressLoop fuel rest)
      else .error .invalidCode

/-- `Smaz::decompress` from `smaz.php`. -/
def Smaz.decompress (input : List Nat) : Except PhpError (List Nat) :=
  Smaz.decompressLoop input.length input

/-! ### PHP / Go equivalence -/

lemma toOption_map {ε α β : Type} (f : α → β) (x : Except ε α) :
    (Except.map f x).toOption = Option.map f x.toOption := by
  cases x <;> rfl

lemma phpFlushLoop_succ (f b : Nat) (rest : List Nat) :
    Smaz.flushLoop (f + 1) (b :: rest) =
      (if min 255 (b :: rest).length = 1 then [Smaz.VERBATIM_BYTE]
       else [Smaz.VERBATIM_STRING, min 255 (b :: rest).length]) ++
        (b :: rest).take (min 255 (b :: rest).length) ++
        Smaz.flushLoop f ((b :: rest).drop (min 255 (b :: rest).length)) := rfl

lemma phpFlushLoop_eq : ∀ f v, Smaz.flushLoop f v = flushLoop f v := by
  intro f
  induction f with
  | zero => intro v; cases v <;> rfl
  | succ g ih =>
    intro v
    cases v with
    | nil => rfl
    | cons b rest =>
      rw [phpFlushLoop_succ, flushLoop_succ, ih]
      rfl

lemma phpFlushVerbatim_eq (v : List Nat) : Smaz.flushVerbatim v = flushChunks v :=
  phpFlushLoop_eq v.length v

lemma lookup_map_swap (l : List (Nat × List Nat)) (k : List Nat) :
    (l.map (fun p => (p.2, p.1))).lookup k =
      Option.map (fun p => p.1) (l.find? (fun p => p.2 == k)) := by
  induction l with
  | nil => rfl
  | cons p rest ih =>
    simp only [List.map_cons, List.lookup, List.find?]
    by_cases h : p.2 = k
    · rw [show (k == p.2) = true from beq_iff_eq.mpr h.symm,
          show (p.2 == k) = true from beq_iff_eq.mpr h]
      rfl
    · rw [show (k == p.2) = false from beq_eq_false_iff_ne.mpr (fun e => h e.symm),
          show (p.2 == k) = false from beq_eq_false_iff_ne.mpr h]
      exact ih

lemma phpLookup_encodeMap (k : List Nat) :
    Smaz.encodeMap.lookup k = trieFind codeTrie k := by
  rw [codeTrie_find]
  show ((decodeMap.enum.map (fun p => (p.2, p.1))).reverse).lookup k = _
  rw [← List.map_reverse, lookup_map_swap]
  cases decodeMap.enum.reverse.find? (fun p => p.2 == k) <;> rfl

lemma phpFindMatch_none (l : List Nat) : ∀ j,
    (∀ j2, 0 < j2 → j2 ≤ j → trieFind codeTrie (l.take j2) = none) →
    Smaz.findMatch l j = none := by
  intro j
  induction j with
  | zero => intro _; rfl
  | succ j' ih =>
    intro h
    show (match Smaz.encodeMap.lookup (l.take (j' + 1)) with
          | some code => some (j' + 1, code)
          | none => Smaz.findMatch l j') = none
    rw [phpLookup_encodeMap, h (j' + 1) (by omega) (le_refl _)]
    exact ih (fun j2 a b => h j2 a (by omega))

lemma phpFindMatch_some (l : List Nat) (m code : Nat)
    (hfind : trieFind codeTrie (l.take m) = some code) : ∀ j, m ≤ j →
    (∀ j2, m < j2 → j2 ≤ j → trieFind codeTrie (l.take j2) = none) →
    Smaz.findMatch l j = some (m, code) := by
  intro j
  induction j with
  | zero =>
    intro hj hmax
    have hm0 : m = 0 := by omega
    subst hm0
    rw [List.take_zero, show trieFind codeTrie [] = none from rfl] at hfind
    exact absurd hfind (by simp)
  | succ j' ih =>
    intro hj hmax
    show (match Smaz.encodeMap.lookup (l.take (j' + 1)) with
          | some code => some (j' + 1, code)
          | none => Smaz.findMatch l j') = _
    by_cases he : m = j' + 1
    · subst he
      rw [phpLookup_encodeMap, hfind]
    · have hlt : m ≤ j' := by omega
      rw [phpLookup_encodeMap, hmax (j' + 1) (by omega) (le_refl _)]
      exact ih hlt (fun j2 a b => hmax j2 a (by omega))

lemma phpFindMatch_eq (l : List Nat) :
    Smaz.findMatch l (min 7 l.length) =
      if 0 < (matchAt l).1 then some (matchAt l) else none := by
  by_cases hm : 0 < (matchAt l).1
  · rw [if_pos hm]
    cases hr : findLPRec codeTrie (l.take 7) with
    | none => rw [matchAt_eq, hr] at hm; simp at hm
    | some p =>
      have hmp : matchAt l = p := by rw [matchAt_eq, hr]
      obtain ⟨m, code⟩ := p
      obtain ⟨h1, h2, h3, h4⟩ := findLPRec_some _ _ _ _ hr
      rw [List.length_take] at h2
      have hm7 : m ≤ 7 := by omega
      rw [List.take_take, show min m 7 = m by omega] at h3
      rw [hmp]
      refine phpFindMatch_some l m code h3 (min 7 l.length) (by omega) ?_
      intro j2 hj1 hj2
      have := h4 j2 hj1 (by rw [List.length_take]; omega)
      rwa [List.take_take, show min j2 7 = j2 by omega] at this
  · rw [if_neg hm]
    cases hr : findLPRec codeTrie (l.take 7) with
    | some p =>
      obtain ⟨m, code⟩ := p
      obtain ⟨h1, _, _, _⟩ := findLPRec_some _ _ _ _ hr
      exfalso
      apply hm
      rw [matchAt_eq, hr]
      exact h1
    | none =>
      refine phpFindMatch_none l (min 7 l.length) ?_
      intro j2 hj1 hj2
      have := findLPRec_none _ _ hr j2 hj1 (by rw [List.length_take]; omega)
      rwa [List.take_take, show min j2 7 = j2 by omega] at this

lemma phpCompressLoop_nil (f : Nat) (v : List Nat) :
    Smaz.compressLoop f [] v = if v.isEmpty then [] else Smaz.flushVerbatim v := by
  cases f <;> rfl

lemma phpCompressLoop_succ (f b : Nat) (rest v : List Nat) :
    Smaz.compressLoop (f + 1) (b :: rest) v =
      match Smaz.findMatch (b :: rest) (min 7 (b :: rest).length) with
      | some jc =>
        (if v.isEmpty then [] else Smaz.flushVerbatim v) ++
          jc.2 :: Smaz.compressLoop f ((b :: rest).drop jc.1) []
      | none =>
        if (v ++ [b]).length = 255 then
          Smaz.flushVerbatim (v ++ [b]) ++ Smaz.compressLoop f rest []
        else Smaz.compressLoop f rest (v ++ [b]) := rfl

lemma phpCompressLoop_eq : ∀ f l v, Smaz.compressLoop f l v = compressLoop f l v := by
  intro f
  induction f with
  | zero =>
    intro l v
    cases l with
    | nil => rw [phpCompressLoop_nil, compressLoop_nil, phpFlushVerbatim_eq]
    | cons b rest =>
      show (if v.isEmpty then [] else Smaz.flushVerbatim v) = _
      rw [show compressLoop 0 (b :: rest) v =
            (if v.isEmpty then [] else flushChunks v) from rfl, phpFlushVerbatim_eq]
  | succ g ih =>
    intro l v
    cases l with
    | nil => rw [phpCompressLoop_nil, compressLoop_nil, phpFlushVerbatim_eq]
    | cons b rest =>
      rw [phpCompressLoop_succ, compressLoop_succ, phpFindMatch_eq]
      by_cases hm : 0 < (matchAt (b :: rest)).1
      · rw [if_pos hm, if_pos hm]
        dsimp only
        rw [ih, phpFlushVerbatim_eq]
      · rw [if_neg hm, if_neg hm]
        dsimp only
        by_cases h255 : (v ++ [b]).length = 255
        · rw [if_pos h255, if_pos h255, ih, phpFlushVerbatim_eq]
        · rw [if_neg h255, if_neg h255, ih]

lemma phpCompress_eq (l : List Nat) : Smaz.compress l = compress l :=
  phpCompressLoop_eq l.length l []

lemma phpDecompressLoop_nil (f : Nat) : Smaz.decompressLoop f [] = .ok [] := by
  cases f <;> rfl

lemma phpDecompressLoop_succ (f c : Nat) (rest : List Nat) :
    Smaz.decompressLoop (f + 1) (c :: rest) =
      if c = Smaz.VERBATIM_BYTE then
        match rest with
        | [] => .error .incompleteVerbatimByte
        | b :: rest2 => Except.map (fun o => b :: o) (Smaz.decompressLoop f rest2)
      else if c = Smaz.VERBATIM_STRING then
        match rest with
        | [] => .error .incompleteVerbatimLength
        | len :: rest2 =>
          if rest2.length < len then .error .incompleteVerbatimData
          else Except.map (fun o => rest2.take len ++ o)
            (Smaz.decompressLoop f (rest2.drop len))
      else if c < decodeMap.length then
        Except.map (fun o => decodeMap.getD c [] ++ o) (Smaz.decompressLoop f rest)
      else .error .invalidCode := rfl

lemma phpDecompressLoop_eq : ∀ f l,
    (Smaz.decompressLoop f l).toOption = (decompressLoop f l).toOption := by
  intro f
  induction f with
  | zero => intro l; cases l <;> rfl
  | succ g ih =>
    intro l
    cases l with
    | nil => rfl
    | cons c rest =>
      rw [phpDecompressLoop_succ, decompressLoop_succ]
      by_cases hc1 : c = verbatimByte
      · rw [if_pos hc1, if_pos (show c = Smaz.VERBATIM_BYTE from hc1)]
        cases rest with
        | nil => rfl
        | cons b rest2 =>
          dsimp only
          rw [toOption_map, toOption_map, ih rest2]
      · rw [if_neg hc1, if_neg (show ¬ c = Smaz.VERBATIM_BYTE from hc1)]
        by_cases hc2 : c = verbatimString
        · rw [if_pos hc2, if_pos (show c = Smaz.VERBATIM_STRING from hc2)]
          cases rest with
          | nil => rfl
          | cons len rest2 =>
            dsimp only
            by_cases hlen : rest2.length < len
            · rw [if_pos hlen, if_pos hlen]
              rfl
            · rw [if_neg hlen, if_neg hlen, toOption_map, toOption_map,
                  ih (rest2.drop len)]
        · rw [if_neg hc2, if_neg (show ¬ c = Smaz.VERBATIM_STRING from hc2)]
          by_cases hc3 : c < decodeMap.length
          · rw [if_pos hc3, if_pos hc3, toOption_map, toOption_map, ih rest]
          · rw [if_neg hc3, if_neg hc3]
            rfl

lemma phpDecompress_eq (l : List Nat) :
    (Smaz.decompress l).toOption = (decompress l).toOption :=
  phpDecompressLoop_eq l.length l

/-! ### Truncation-error characterisation -/

/-- A tail that is exactly one incomplete token: a final 254 with no byte
after it, a final 255 with no length byte, or a 255+length frame whose
declared length exceeds the remaining bytes. -/
def incompleteTok (z : List Nat) : Prop :=
  z = [verbatimByte] ∨ z = [verbatimString] ∨
    ∃ len r, z = verbatimString :: len :: r ∧ r.length < len

lemma incompleteTok_error (z : List Nat) (h : incompleteTok z) :
    ∃ e, decompress z = .error e := by
  rcases h with h | h | ⟨len, r, rfl, hlen⟩
  · subst h; exact ⟨_, decompress_vb_nil⟩
  · subst h; exact ⟨_, decompress_vs_nil⟩
  · exact ⟨_, decompress_vs_short len r hlen⟩

lemma decompress_error_split : ∀ n input, input.length ≤ n →
    (∀ b ∈ input, b < 256) → ∀ e, decompress input = .error e →
    ∃ a z ra, input = a ++ z ∧ decompress a = .ok ra ∧ incompleteTok z := by
  intro n
  induction n with
  | zero =>
    intro input h1 _ e h2
    have hl : input = [] := List.eq_nil_of_length_eq_zero (Nat.le_zero.mp h1)
    subst hl
    rw [decompress_nil] at h2
    exact absurd h2 (by simp)
  | succ g ih =>
    intro input h1 hb e h2
    match input with
    | [] => rw [decompress_nil] at h2; exact absurd h2 (by simp)
    | c :: rest =>
      simp only [List.length_cons, Nat.add_le_add_iff_right] at h1
      by_cases hc1 : c = verbatimByte
      · subst hc1
        cases rest with
        | nil =>
          exact ⟨[], [verbatimByte], [], by simp, decompress_nil, Or.inl rfl⟩
        | cons b0 rest2 =>
          rw [decompress_vb] at h2
          cases hr : decompress rest2 with
          | ok r2 => rw [hr, exMap_ok] at h2; exact absurd h2 (by simp)
          | error e2 =>
            rw [hr, exMap_error] at h2
            obtain ⟨a, z, ra, heq, hok, hinc⟩ :=
              ih rest2 (by simp at h1; omega)
                (fun b hb2 => hb b (List.mem_cons_of_mem _ (List.mem_cons_of_mem _ hb2)))
                e2 hr
            refine ⟨verbatimByte :: b0 :: a, z, b0 :: ra, by rw [heq]; rfl, ?_, hinc⟩
            rw [decompress_vb, hok, exMap_ok]
      · by_cases hc2 : c = verbatimString
        · subst hc2
          cases rest with
          | nil =>
            exact ⟨[], [verbatimString], [], by simp, decompress_nil,
              Or.inr (Or.inl rfl)⟩
          | cons len rest2 =>
            by_cases hlen : rest2.length < len
            · exact ⟨[], verbatimString :: len :: rest2, [], by simp, decompress_nil,
                Or.inr (Or.inr ⟨len, rest2, rfl, hlen⟩)⟩
            · have hlen' : len ≤ rest2.length := Nat.not_lt.mp hlen
              rw [decompress_vs len rest2 hlen'] at h2
              cases hr : decompress (rest2.drop len) with
              | ok r2 => rw [hr, exMap_ok] at h2; exact absurd h2 (by simp)
              | error e2 =>
                rw [hr, exMap_error] at h2
                obtain ⟨a, z, ra, heq, hok, hinc⟩ :=
                  ih (rest2.drop len)
                    (by have := h1; simp at this ⊢; omega)
                    (fun b hb2 => hb b (List.mem_cons_of_mem _
                      (List.mem_cons_of_mem _ (List.drop_subset _ _ hb2))))
                    e2 hr
                have htlen : (rest2.take len).length = len := by
                  rw [List.length_take]; omega
                refine ⟨verbatimString :: len :: (rest2.take len ++ a), z,
                  rest2.take len ++ ra, ?_, ?_, hinc⟩
                · simp only [List.cons_append, List.append_assoc]
                  rw [← heq, List.take_append_drop]
                · rw [decompress_vs len _ (by rw [List.length_append, htlen]; omega),
                      List.take_left' htlen, List.drop_left' htlen, hok, exMap_ok]
        · have hc256 : c < 256 := hb c (List.mem_cons_self _ _)
          have hc1' : c ≠ 254 := hc1
          have hc2' : c ≠ 255 := hc2
          have hc3 : c < 254 := by omega
          rw [decompress_code c rest hc3] at h2
          cases hr : decompress rest with
          | ok r2 => rw [hr, exMap_ok] at h2; exact absurd h2 (by simp)
          | error e2 =>
            rw [hr, exMap_error] at h2
            obtain ⟨a, z, ra, heq, hok, hinc⟩ :=
              ih rest h1 (fun b hb2 => hb b (List.mem_cons_of_mem _ hb2)) e2 hr
            refine ⟨c :: a, z, decodeMap.getD c [] ++ ra, by rw [heq]; rfl, ?_, hinc⟩
            rw [decompress_code c a hc3, hok, exMap_ok]

/-- With the shipped 254-entry codebook the invalid-code branch is
unreachable on byte-valued input. -/
lemma decompress_no_invalidCode : ∀ n input, input.length ≤ n →
    (∀ b ∈ input, b < 256) → decompress input ≠ .error .invalidCode := by
  intro n
  induction n with
  | zero =>
    intro input h1 _
    have hl : input = [] := List.eq_nil_of_length_eq_zero (Nat.le_zero.mp h1)
    subst hl
    rw [decompress_nil]
    simp
  | succ g ih =>
    intro input h1 hb
    match input with
    | [] => rw [decompress_nil]; simp
    | c :: rest =>
      simp only [List.length_cons, Nat.add_le_add_iff_right] at h1
      by_cases hc1 : c = verbatimByte
      · subst hc1
        cases rest with
        | nil => rw [decompress_vb_nil]; simp
        | cons b0 rest2 =>
          rw [decompress_vb]
          cases hr : decompress rest2 with
          | ok r2 => rw [exMap_ok]; simp
          | error e2 =>
            rw [exMap_error]
            intro hcontra
            have he2 : e2 = .invalidCode := by injection hcontra
            subst he2
            exact ih rest2 (by simp at h1; omega)
              (fun b hb2 => hb b (List.mem_cons_of_mem _ (List.mem_cons_of_mem _ hb2)))
              hr
      · by_cases hc2 : c = verbatimString
        · subst hc2
          cases rest with
          | nil => rw [decompress_vs_nil]; simp
          | cons len rest2 =>
            by_cases hlen : rest2.length < len
            · rw [decompress_vs_short len rest2 hlen]; simp
            · have hlen' : len ≤ rest2.length := Nat.not_lt.mp hlen
              rw [decompress_vs len rest2 hlen']
              cases hr : decompress (rest2.drop len) with
              | ok r2 => rw [exMap_ok]; simp
              | error e2 =>
                rw [exMap_error]
                intro hcontra
                have he2 : e2 = .invalidCode := by injection hcontra
                subst he2
                exact ih (rest2.drop len)
                  (by have := h1; simp at this ⊢; omega)
                  (fun b hb2 => hb b (List.mem_cons_of_mem _
                    (List.mem_cons_of_mem _ (List.drop_subset _ _ hb2))))
                  hr
        · have hc256 : c < 256 := hb c (List.mem_cons_self _ _)
          have hc1' : c ≠ 254 := hc1
          have hc2' : c ≠ 255 := hc2
          have hc3 : c < 254 := by omega
          rw [decompress_code c rest hc3]
          cases hr : decompress rest with
          | ok r2 => rw [exMap_ok]; simp
          | error e2 =>
            rw [exMap_error]
            intro hcontra
            have he2 : e2 = .invalidCode := by injection hcontra
            subst he2
            exact ih rest h1 (fun b hb2 => hb b (List.mem_cons_of_mem _ hb2)) hr

/-! ### Helper facts for concrete witnesses -/

lemma no_entry_head_zero : ∀ e ∈ decodeMap, e.head? ≠ some 0 := by decide

lemma no_match_replicate_zero (n : Nat) (e : List Nat) (he : e ∈ decodeMap) :
    ¬ e <+: List.replicate n 0 := by
  intro hp
  have h1 : 1 ≤ e.length := (decodeMap_entry_bounds e he).1
  cases e with
  | nil => simp at h1
  | cons b e2 =>
    have hb : b = 0 := by
      cases n with
      | zero =>
        have := hp.length_le
        simp at this
      | succ m =>
        rw [List.replicate_succ] at hp
        exact (List.cons_prefix_cons.mp hp).1
    subst hb
    exact no_entry_head_zero _ he rfl

/-! ### Claim theorems -/

/-- C1: for every byte sequence S — empty, containing bytes absent from the
dictionary, or containing every byte value 0-255 including the escape
values 254 and 255 — `Decompress(Compress(S))` succeeds and returns
exactly S. -/
theorem C1_roundtrip (S : List Nat) (_hS : ∀ b ∈ S, b < 256) :
    decompress (compress S) = .ok S :=
  compress_roundtrip S

theorem C1_roundtrip_witness :
    (∀ b ∈ ([104, 101, 0, 254, 255, 116, 104, 101] : List Nat), b < 256) ∧
      decompress (compress [104, 101, 0, 254, 255, 116, 104, 101]) =
        .ok [104, 101, 0, 254, 255, 116, 104, 101] :=
  ⟨by decide, C1_roundtrip [104, 101, 0, 254, 255, 116, 104, 101] (by decide)⟩

/-- C2: at any position where some dictionary entry matches, the first byte
the encoder emits is the code of a longest matching entry: its entry is a
prefix of the input and every dictionary entry that is a prefix of the
input is no longer, so when a shorter and a longer entry both match, the
longer one wins. -/
theorem C2_greedy_longest_match (input e : List Nat)
    (he : e ∈ decodeMap) (hp : e <+: input) :
    ∃ code entry, (compress input).head? = some code ∧
      decodeMap.get? code = some entry ∧ entry <+: input ∧
      ∀ e2 ∈ decodeMap, e2 <+: input → e2.length ≤ entry.length := by
  have hm : 0 < (matchAt input).1 := by
    have hmax := matchAt_maximal input e he hp
    have hlen := (decodeMap_entry_bounds e he).1
    omega
  obtain ⟨hget, hm7, hml⟩ := matchAt_pos input hm
  refine ⟨(matchAt input).2, input.take (matchAt input).1, ?_, hget,
    List.take_prefix _ _, ?_⟩
  · cases input with
    | nil =>
      exfalso
      simp only [List.length_nil] at hml
      omega
    | cons b rest =>
      show (compressLoop (rest.length + 1) (b :: rest) []).head? = _
      rw [compressLoop_succ, if_pos hm]
      simp
  · intro e2 he2 hp2
    have := matchAt_maximal input e2 he2 hp2
    rw [List.length_take]
    omega

theorem C2_greedy_longest_match_witness :
    ∃ code entry, (compress (strBytes "the quick brown fox")).head? = some code ∧
      decodeMap.get? code = some entry ∧ entry <+: strBytes "the quick brown fox" ∧
      ∀ e2 ∈ decodeMap, e2 <+: strBytes "the quick brown fox" →
        e2.length ≤ entry.length :=
  C2_greedy_longest_match (strBytes "the quick brown fox") (strBytes "t")
    (by decide) (by decide)

/-- C3: a single byte matched by no dictionary entry compresses to exactly
`[254, b]`, and two consecutive bytes with no dictionary match at either
position compress to exactly `[255, 2, b0, b1]`. -/
theorem C3_escape_framing (b b0 b1 : Nat)
    (h1 : ∀ e ∈ decodeMap, ¬ e <+: [b])
    (h2 : ∀ e ∈ decodeMap, ¬ e <+: [b0, b1])
    (h3 : ∀ e ∈ decodeMap, ¬ e <+: [b1]) :
    compress [b] = [254, b] ∧ compress [b0, b1] = [255, 2, b0, b1] := by
  constructor
  · have h := compressLoop_allVerbatim 1 [b] [] (by simp)
      (by
        intro i hi e he
        simp only [List.length_singleton] at hi
        have hi0 : i = 0 := by omega
        subst hi0
        exact h1 e he)
      (by simp) (by simp)
    rw [show compress [b] = compressLoop 1 [b] [] from rfl, h, List.nil_append,
        flushChunks_small [b] (by simp) (by simp)]
    simp [verbatimByte]
  · have h := compressLoop_allVerbatim 2 [b0, b1] [] (by simp)
      (by
        intro i hi e he
        simp only [List.length_cons, List.length_singleton] at hi
        match i with
        | 0 => exact h2 e he
        | 1 => exact h3 e he)
      (by simp) (by simp)
    rw [show compress [b0, b1] = compressLoop 2 [b0, b1] [] from rfl, h,
        List.nil_append, flushChunks_small [b0, b1] (by simp) (by simp)]
    simp [verbatimString]

theorem C3_escape_framing_witness :
    compress [0] = [254, 0] ∧ compress [0, 0] = [255, 2, 0, 0] :=
  C3_escape_framing 0 0 0 (by decide) (by decide) (by decide)

/-- C4: a run of exactly 255 bytes with no dictionary match at any position
compresses to the single frame `[255, 255, bytes]` (the accumulator is
flushed as soon as it reaches 255 bytes); a run of 256 such bytes
compresses to that frame followed by `[254, b]` for the last byte. -/
theorem C4_boundary_255 :
    (∀ input : List Nat, input.length = 255 →
      (∀ i, i < input.length → ∀ e ∈ decodeMap, ¬ e <+: input.drop i) →
      compress input = 255 :: 255 :: input) ∧
    (∀ input : List Nat, input.length = 256 →
      (∀ i, i < input.length → ∀ e ∈ decodeMap, ¬ e <+: input.drop i) →
      compress input = (255 :: 255 :: input.take 255) ++ 254 :: input.drop 255) := by
  constructor
  · intro input hlen hnm
    have h := compressLoop_allVerbatim input.length input [] (le_refl _) hnm
      (by simp [hlen]) (by simp [hlen])
    rw [show compress input = compressLoop input.length input [] from rfl, h,
        List.nil_append, flushChunks_small input (by omega) (by omega), hlen]
    simp [verbatimString]
  · intro input hlen hnm
    have hxs : (input.take 255).length = 255 := by
      rw [List.length_take]; omega
    have hsplit : input.take 255 ++ input.drop 255 = input := List.take_append_drop _ _
    obtain ⟨x, hx⟩ : ∃ x, input.drop 255 = [x] := by
      have hdl : (input.drop 255).length = 1 := by rw [List.length_drop]; omega
      match hd : input.drop 255 with
      | [] => rw [hd] at hdl; simp at hdl
      | [x] => exact ⟨x, rfl⟩
      | x :: y :: r => rw [hd] at hdl; simp at hdl
    have hnm1 : (matchAt [x]).1 = 0 := by
      apply matchAt_zero
      intro e he
      have hh := hnm 255 (by omega) e he
      rwa [hx] at hh
    have h := compressLoop_fill255 (input.take 255) (input.drop 255) [] input.length
      (by rw [hsplit])
      (by intro i hi e he; rw [hsplit]; exact hnm i (by omega) e he)
      (by simp [hxs]) (by simp)
    have hstep : compressLoop input.length input [] =
        flushChunks ([] ++ input.take 255) ++
          compressLoop (input.length - (input.take 255).length) (input.drop 255) [] := by
      rw [← h, hsplit]
    rw [show compress input = compressLoop input.length input [] from rfl, hstep,
        List.nil_append, hxs, hlen, hx,
        show compressLoop (256 - 255) [x] [] = compressLoop 1 [x] [] from rfl,
        compressLoop_succ, if_neg (by omega), if_neg (by simp), compressLoop_nil,
        flushChunks_small (input.take 255) (by omega) (by omega), hxs]
    simp [flushChunks, flushLoop, verbatimByte, verbatimString, List.append_assoc]

theorem C4_boundary_255_witness :
    compress (List.replicate 255 0) = 255 :: 255 :: List.replicate 255 0 ∧
      compress (List.replicate 256 0) =
        (255 :: 255 :: (List.replicate 256 0).take 255) ++
          254 :: (List.replicate 256 0).drop 255 :=
  ⟨C4_boundary_255.1 (List.replicate 255 0) (by simp)
      (fun i hi e he => by
        rw [List.drop_replicate]
        exact no_match_replicate_zero _ e he),
   C4_boundary_255.2 (List.replicate 256 0) (by simp)
      (fun i hi e he => by
        rw [List.drop_replicate]
        exact no_match_replicate_zero _ e he)⟩

/-- C5: decompression fails exactly when the input splits into a decodable
prefix followed by one incomplete token (a final 254, a final 255, or a
255+length frame declaring more bytes than remain); in particular
`[254]` and `[255, 5, 1, 2]` fail, no partial output is returned, and the
complete zero-length frame `[255, 0]` succeeds with no output. -/
theorem C5_truncation :
    (∀ input, (∀ b ∈ input, b < 256) →
      ((∃ e, decompress input = .error e) ↔
        ∃ a z ra, input = a ++ z ∧ decompress a = .ok ra ∧ incompleteTok z)) ∧
    decompress [254] = .error .incompleteVerbatimByte ∧
    decompress [255, 5, 1, 2] = .error .incompleteVerbatimData ∧
    decompress [255, 0] = .ok [] := by
  refine ⟨?_, rfl, rfl, rfl⟩
  intro input hbytes
  constructor
  · rintro ⟨e, he⟩
    exact decompress_error_split input.length input (le_refl _) hbytes e he
  · rintro ⟨a, z, ra, rfl, hok, hinc⟩
    obtain ⟨e, he⟩ := incompleteTok_error z hinc
    refine ⟨e, ?_⟩
    rw [decompress_append a z ra hok, he, exMap_error]

theorem C5_truncation_witness :
    (∃ e, decompress [254, 7, 255, 3] = .error e) ↔
      ∃ a z ra, ([254, 7, 255, 3] : List Nat) = a ++ z ∧
        decompress a = .ok ra ∧ incompleteTok z :=
  C5_truncation.1 [254, 7, 255, 3] (by decide)

/-- C6: a non-escape byte (0-253) decodes by appending the codebook entry
at that index and advancing one byte; the invalid-code error requires a
code at or above the codebook size, and since the shipped codebook has 254
entries the error is unreachable for every byte-valued input. -/
theorem C6_invalid_code_unreachable :
    decodeMap.length = 254 ∧
    (∀ c rest, c < 254 →
      decompress (c :: rest) =
        Except.map (fun o => decodeMap.getD c [] ++ o) (decompress rest)) ∧
    (∀ input, (∀ b ∈ input, b < 256) → decompress input ≠ .error .invalidCode) := by
  refine ⟨by decide, decompress_code, ?_⟩
  intro input hbytes
  exact decompress_no_invalidCode input.length input (le_refl _) hbytes

theorem C6_invalid_code_unreachable_witness :
    decompress [10, 0] =
      Except.map (fun o => decodeMap.getD 10 [] ++ o) (decompress [0]) ∧
    decompress [254, 255] ≠ .error .invalidCode :=
  ⟨C6_invalid_code_unreachable.2.1 10 [0] (by decide),
   C6_invalid_code_unreachable.2.2 [254, 255] (by decide)⟩

/-- C7: the Go and PHP implementations compute the same functions: the two
compressors agree on every input, and the two decompressors either both
fail or both succeed with the same bytes. -/
theorem C7_php_go_equivalence :
    (∀ l, Smaz.compress l = compress l) ∧
    (∀ l, (Smaz.decompress l).toOption = (decompress l).toOption) :=
  ⟨phpCompress_eq, phpDecompress_eq⟩

/-- C8: compressing the empty sequence yields the empty sequence, and
decompressing the empty sequence succeeds with the empty sequence. -/
theorem C8_empty :
    Compress (some []) = .ok [] ∧ Decompress (some []) = .ok [] :=
  ⟨rfl, rfl⟩

/-- C9: compression fails only on a nil input: every non-nil byte slice
(empty included) compresses without error, while the nil slice is rejected
with an error by both `Compress` and `Decompress`. -/
theorem C9_nil_input :
    (∀ l, Compress (some l) = .ok (compress l)) ∧
    Compress none = .error .nilInput ∧
    Decompress none = .error .nilInput :=
  ⟨fun _ => rfl, rfl, rfl⟩

/-- C10: decoding is a homomorphism over concatenation: if the first part
decodes successfully, the concatenation decodes exactly when the second
part does, and then to the concatenation of the two outputs. -/
theorem C10_decode_append (a b ra : List Nat) (h : decompress a = .ok ra) :
    decompress (a ++ b) = Except.map (fun rb => ra ++ rb) (decompress b) ∧
    ((∃ r, decompress (a ++ b) = .ok r) ↔ (∃ r, decompress b = .ok r)) := by
  have hmap := decompress_append a b ra h
  refine ⟨hmap, ?_⟩
  constructor
  · rintro ⟨r, hr⟩
    cases hb : decompress b with
    | ok rb => exact ⟨rb, rfl⟩
    | error e =>
      rw [hmap, hb, exMap_error] at hr
      exact absurd hr (by simp)
  · rintro ⟨r, hr⟩
    exact ⟨ra ++ r, by rw [hmap, hr, exMap_ok]⟩

theorem C10_decode_append_witness :
    decompress ([254, 7] ++ [0]) =
      Except.map (fun rb => [7] ++ rb) (decompress [0]) ∧
    ((∃ r, decompress ([254, 7] ++ [0]) = .ok r) ↔
      (∃ r, decompress [0] = .ok r)) :=
  C10_decode_append [254, 7] [0] [7] (by rfl)
